import Mathlib

/-!
Shallow embedding of the C-Vec dynamic-array library (`src/vector.c`).

Modelling conventions:

* The backing heap buffer (`void *array`, `capacity * elem_size` bytes) is a
  `List (List Nat)`: a list of slots, each slot being the list of its bytes
  (`elem_size` bytes per slot in a well-formed vector).  Every operation of
  the library addresses the buffer as `array + index * elem_size` and reads or
  writes whole `elem_size`-byte slots via `get_elem` / `set_elem` / `memcmp` /
  `memcpy`, so slot granularity is faithful to the byte-level code.
* `size_t` fields (`elem_size`, `length`, `capacity`) are `Nat`.  The one
  place the C code can underflow a `size_t` — the unconditional
  `vector->length--` in `remove_elem` — is modelled explicitly as subtraction
  modulo `2 ^ 64`.
* `int` loop counters and indices are `Nat` (all claims use non-negative
  values that fit in `int`).
* Each C `for` loop becomes a structurally recursive function on an explicit
  fuel argument; the loop's own exit condition is tested inside, and the
  wrapper passes fuel that strictly dominates the iteration count, so the
  fuel never runs out and the recursion mirrors the loop exactly.
* `next_pow_2` computes `ceil(log(x)/log(2))` with double-precision `log` and
  `ceil`.  The model uses the exact value `Nat.clog 2 x`.  An exhaustive
  machine check of `(int) ceil(log((double) x) / log(2.0))` for all
  `3 <= x < 2 ^ 30` against the exact ceiling base-2 logarithm shows the two
  agree everywhere except the single argument `x = 2 ^ 29` (where the
  floating-point quotient lands just above 29 and `ceil` yields 30), so
  theorems that depend on the power-of-two computation are stated for
  arguments below `2 ^ 29`.
* `realloc` (success path) preserves the first `min(old size, new size)`
  bytes and leaves any newly acquired memory indeterminate; the indeterminate
  tail is modelled by an explicit `fresh` slot-list parameter that theorems
  quantify over.  The failure path calls `exit(1)` and is outside the claims.
* The `fprintf(stderr, ...)` report in `any_elems_shared` is modelled as a
  second, boolean component of the result: `(return value, error reported)`.
-/

namespace CVec

/-- Width modulus of `size_t` (LP64): arithmetic on `size_t` wraps modulo this. -/
def sizeTMod : Nat := 2 ^ 64

/-- Bytes of one stored element: a slot of the buffer. -/
abbrev Elem := List Nat

/-- Model of `struct Vector`: `array` is the buffer as a list of slots,
`elem_size`, `length` and `capacity` are the `size_t` fields. -/
structure Vector where
  data : List Elem
  elem_size : Nat
  length : Nat
  capacity : Nat
deriving DecidableEq

/-- Model of `next_pow_2`: returns `1` when `x <= 2`, otherwise
`(int) ceil(log(x) / log(2))`, idealized to the exact `Nat.clog 2 x`
(exhaustively equal to the double-precision value for `3 <= x < 2 ^ 29`;
at `x = 2 ^ 29` the floating-point formula instead yields `30`). -/
def next_pow_2 (x : Nat) : Nat :=
  if x ≤ 2 then 1 else Nat.clog 2 x

/-- Model of `create_vector_with_capacity`: capacity is
`(size_t) pow(2, next_pow_2(initial_size))` (`pow` is exact on these inputs),
the buffer is `calloc`-zeroed (`capacity` slots of `elem_size` zero bytes),
and length starts at `0`. -/
def create_vector_with_capacity (elem_size initial_size : Nat) : Vector :=
  let actual_size := 2 ^ next_pow_2 initial_size
  { data := List.replicate actual_size (List.replicate elem_size 0)
    elem_size := elem_size
    length := 0
    capacity := actual_size }

/-- Model of `create_vector`: `create_vector_with_capacity(elem_size, 16)`. -/
def create_vector (elem_size : Nat) : Vector :=
  create_vector_with_capacity elem_size 16

/-- Model of `get_elem`: the slot at `array + index * elem_size`.  An index
outside the buffer yields the junk value `[]` (the C code would read
whatever bytes sit there; no claim reads out of range). -/
def get_elem (vector : Vector) (index : Nat) : Elem :=
  vector.data.getD index []

/-- Model of `set_elem`: `memcpy` of `elem_size` bytes into the slot at
`array + index * elem_size` (out-of-range writes, which no claim performs,
leave the model buffer unchanged). -/
def set_elem (vector : Vector) (index : Nat) (element : Elem) : Vector :=
  { vector with data := vector.data.set index element }

/-- Loop body of `remove_elem`:
`for (int i = index + 1; i < vector->length; i++) set_elem(vector, i - 1, get_elem(vector, i))`,
driven by fuel (the wrapper supplies `length + 1`, which dominates the
iteration count). -/
def removeLoop : Vector → Nat → Nat → Vector
  | vector, _, 0 => vector
  | vector, i, fuel + 1 =>
    if i < vector.length then
      removeLoop (set_elem vector (i - 1) (get_elem vector i)) (i + 1) fuel
    else vector

/-- Model of `remove_elem`: runs the shift loop from `index + 1`, then performs
the unconditional `vector->length--`, a `size_t` decrement (wraps modulo
`2 ^ 64` when `length` is `0`). -/
def remove_elem (vector : Vector) (index : Nat) : Vector :=
  let shifted := removeLoop vector (index + 1) (vector.length + 1)
  { shifted with length := (shifted.length + (sizeTMod - 1)) % sizeTMod }

/-- Loop of `index_of`: scans `i = 0, 1, ...` while `i < vector->length`,
returning `i` as soon as `memcmp(get_elem(vector, i), element, elem_size) == 0`
(slot equality in the model), else `-1` after the scan. -/
def indexOfLoop (vector : Vector) (element : Elem) : Nat → Nat → Int
  | _, 0 => -1
  | i, fuel + 1 =>
    if i < vector.length then
      if get_elem vector i = element then (i : Int)
      else indexOfLoop vector element (i + 1) fuel
    else -1

/-- Model of `index_of` (returns the C `int` result, `-1` for not found). -/
def index_of (vector : Vector) (element : Elem) : Int :=
  indexOfLoop vector element 0 (vector.length + 1)

/-- Model of `is_empty`. -/
def is_empty (vector : Vector) : Bool :=
  vector.length == 0

/-- Inner loop of `any_elems_shared`: scans `vector2` for a slot whose
`elem_size` bytes equal `elem1`'s (`memcmp == 0`). -/
def anyInnerLoop (vector2 : Vector) (elem1 : Elem) : Nat → Nat → Bool
  | _, 0 => false
  | j, fuel + 1 =>
    if j < vector2.length then
      if elem1 = get_elem vector2 j then true
      else anyInnerLoop vector2 elem1 (j + 1) fuel
    else false

/-- Outer loop of `any_elems_shared`: for each valid slot of `vector1`, runs
the inner scan of `vector2`; `return TRUE` inside the inner loop exits the
whole function, which is the `if ... then true` short-circuit here. -/
def anyOuterLoop (vector1 vector2 : Vector) : Nat → Nat → Bool
  | _, 0 => false
  | i, fuel + 1 =>
    if i < vector1.length then
      if anyInnerLoop vector2 (get_elem vector1 i) 0 (vector2.length + 1) then true
      else anyOuterLoop vector1 vector2 (i + 1) fuel
    else false

/-- Model of `any_elems_shared`.  The result is the pair
`(returned BOOL, error reported on stderr)`: on mismatched `elem_size` the C
code prints an error and returns `FALSE` before touching either buffer. -/
def any_elems_shared (vector1 vector2 : Vector) : Bool × Bool :=
  if vector1.elem_size ≠ vector2.elem_size then (false, true)
  else (anyOuterLoop vector1 vector2 0 (vector1.length + 1), false)

/-- Model of `swap_elems`: early-out when the indices coincide, otherwise the
first slot is copied into `temp`, the second slot is copied over the first,
and `temp` over the second. -/
def swap_elems (vector : Vector) (index1 index2 : Nat) : Vector :=
  if index1 = index2 then vector
  else
    let elem1 := get_elem vector index1
    let elem2 := get_elem vector index2
    let temp := elem1
    set_elem (set_elem vector index1 elem2) index2 temp

/-- Inner loop of `sort_vector`: scans `j = min start .. length - 1`,
replacing the candidate index whenever `compare(min, candidate) == 1`.  The C
code carries both the pointer `min` and `min_index`; since the buffer is not
written during the scan, `min` always equals `get_elem(vector, min_index)`,
so the model carries only the index. -/
def sortInnerLoop (vector : Vector) (compare : Elem → Elem → Int) :
    Nat → Nat → Nat → Nat
  | min_index, _, 0 => min_index
  | min_index, j, fuel + 1 =>
    if j < vector.length then
      let candidate := get_elem vector j
      let result := compare (get_elem vector min_index) candidate
      if result = 1 then sortInnerLoop vector compare j (j + 1) fuel
      else sortInnerLoop vector compare min_index (j + 1) fuel
    else min_index

/-- Outer loop of `sort_vector`: for `i = 0 .. length - 2`, finds the
candidate index in `i+1 .. length-1` and swaps it into position `i`.  The C
bound `i < vector->length - 1` subtracts in `size_t`; for `length >= 1`
(hypothesis of every claim about sorting) Nat subtraction agrees with it. -/
def sortOuterLoop (compare : Elem → Elem → Int) : Vector → Nat → Nat → Vector
  | vector, _, 0 => vector
  | vector, i, fuel + 1 =>
    if i < vector.length - 1 then
      let min_index := sortInnerLoop vector compare i (i + 1) (vector.length + 1)
      sortOuterLoop compare (swap_elems vector i min_index) (i + 1) fuel
    else vector

/-- Model of `sort_vector`. -/
def sort_vector (vector : Vector) (compare : Elem → Elem → Int) : Vector :=
  sortOuterLoop compare vector 0 (vector.length + 1)

/-- Model of `expand_vector`, success path of `realloc`: the first
`min(old buffer size, new_size)` slots survive, slots acquired beyond the old
buffer hold indeterminate bytes (the explicit `fresh` list), and `capacity`
becomes exactly `new_size`.  The failure path (`exit(1)`) is not modelled. -/
def expand_vector (vector : Vector) (new_size : Nat) (fresh : List Elem) : Vector :=
  { vector with
    data := (vector.data ++ fresh).take new_size
    capacity := new_size }

/-- Model of `push_back`: grow to `2 * capacity` when `length >= capacity`,
then write the element at slot `length` and increment `length`.  The `fresh`
parameter feeds the indeterminate tail of a possible reallocation. -/
def push_back (fresh : List Elem) (vector : Vector) (element : Elem) : Vector :=
  let vector :=
    if vector.capacity ≤ vector.length then
      expand_vector vector (vector.capacity * 2) fresh
    else vector
  let vector := set_elem vector vector.length element
  { vector with length := vector.length + 1 }

/-- Iterated `push_back` of a list of elements, left to right. -/
def appendAll (fresh : List Elem) (elems : List Elem) (vector : Vector) : Vector :=
  elems.foldl (push_back fresh) vector

/-- Scenario fixture: the four little-endian bytes of a 4-byte unsigned
integer, as stored by `push_back(&n)` on a little-endian machine. -/
def int4 (n : Nat) : Elem :=
  [n % 256, n / 256 % 256, n / 65536 % 256, n / 16777216 % 256]

/-- Scenario fixture: decode a 4-byte little-endian slot back to the integer. -/
def dec4 (e : Elem) : Nat :=
  e.getD 0 0 + 256 * e.getD 1 0 + 65536 * e.getD 2 0 + 16777216 * e.getD 3 0

/-- Scenario fixture: comparator that returns the greater signal `1` exactly
when its first argument is numerically less than its second (descending
sort), `0` on equality and `-1` otherwise. -/
def descCompare (a b : Elem) : Int :=
  if dec4 a < dec4 b then 1 else if dec4 a = dec4 b then 0 else -1

/-- A capacity value that is a power of two. -/
def isPow2 (c : Nat) : Prop := ∃ k, c = 2 ^ k

/-- `c` is the smallest power of two that is at least `n`. -/
def isLeastPow2Ge (c n : Nat) : Prop :=
  isPow2 c ∧ n ≤ c ∧ ∀ k, n ≤ 2 ^ k → c ≤ 2 ^ k

/-! ### General list helper lemmas -/

lemma getD_take_of_lt (l : List Elem) (n j : Nat) (h : j < n) :
    (l.take n).getD j [] = l.getD j [] := by
  rw [List.getD_eq_getElem?_getD, List.getD_eq_getElem?_getD, List.getElem?_take_of_lt h]

lemma getD_set_of_lt (l : List Elem) (n x : Nat) (a : Elem) (h : n < l.length) :
    (l.set n a).getD x [] = if n = x then a else l.getD x [] := by
  rw [List.getD_eq_getElem?_getD, List.getD_eq_getElem?_getD]
  by_cases hx : n = x
  · subst hx
    rw [List.getElem?_set_self h]
    simp
  · rw [List.getElem?_set_ne hx]
    simp [hx]

lemma drop_set_of_lt (l : List Elem) (n m : Nat) (a : Elem) (h : m < n) :
    (l.set m a).drop n = l.drop n := by
  rw [List.drop_set]
  simp [h]

/-! ### C1: capacity normalization at construction -/

/-- C1 counterexample: the claim says any `min_capacity <= 2` yields capacity
`1`, but `create_vector_with_capacity(4, 1)` has capacity
`pow(2, next_pow_2(1)) = 2 ^ 1 = 2`, not `1`. -/
theorem c1_counterexample :
    (create_vector_with_capacity 4 1).capacity = 2 ∧
    (create_vector_with_capacity 4 1).capacity ≠ 1 := by
  decide

/-- C1 (amended): `create_with_capacity(element_size, min_capacity)` produces
an array of length 0 whose capacity is `2` for every `min_capacity <= 2`
(not `1`: the code returns exponent `1` and allocates `2 ^ 1` slots), and the
smallest power of two `>= min_capacity` for every `2 < min_capacity < 2 ^ 29`
(the bound under which the double-precision logarithm formula provably equals
the exact ceiling base-2 logarithm; at exactly `2 ^ 29` the floating-point
computation overshoots, see the spec's §9 open question). -/
theorem create_with_capacity_normalizes (elem_size initial_size : Nat)
    (h : initial_size < 2 ^ 29) :
    (create_vector_with_capacity elem_size initial_size).length = 0 ∧
    (initial_size ≤ 2 →
      (create_vector_with_capacity elem_size initial_size).capacity = 2) ∧
    (2 < initial_size →
      isLeastPow2Ge (create_vector_with_capacity elem_size initial_size).capacity
        initial_size) := by
  refine ⟨rfl, ?_, ?_⟩
  · intro h2
    simp [create_vector_with_capacity, next_pow_2, h2]
  · intro h2
    have hle : ¬ initial_size ≤ 2 := by omega
    simp only [create_vector_with_capacity, next_pow_2, hle, if_false]
    refine ⟨⟨Nat.clog 2 initial_size, rfl⟩, Nat.le_pow_clog (by norm_num) _, ?_⟩
    intro k hk
    exact Nat.pow_le_pow_right (by norm_num)
      ((Nat.le_pow_iff_clog_le (by norm_num)).mp hk)

/-- Witness for the amended C1 theorem at `elem_size = 4`,
`min_capacity = 5`. -/
theorem create_with_capacity_normalizes_witness :
    (5 < 2 ^ 29) ∧
    ((create_vector_with_capacity 4 5).length = 0 ∧
     (5 ≤ 2 → (create_vector_with_capacity 4 5).capacity = 2) ∧
     (2 < 5 → isLeastPow2Ge (create_vector_with_capacity 4 5).capacity 5)) :=
  ⟨by norm_num, create_with_capacity_normalizes 4 5 (by norm_num)⟩

/-! ### C2: the concrete append / sort / remove scenario -/

/-- Evaluation of the default-capacity constructor for 4-byte elements:
`next_pow_2 16 = 4`, so the buffer holds `2 ^ 4 = 16` zeroed 4-byte slots
(stated explicitly because `Nat.clog` does not reduce by kernel
computation). -/
lemma create_vector_four_eq :
    create_vector 4 = ⟨List.replicate 16 (List.replicate 4 0), 4, 0, 16⟩ := by
  have h16 : (16 : Nat) = 2 ^ 4 := by norm_num
  have h4 : next_pow_2 16 = 4 := by
    rw [next_pow_2, if_neg (by norm_num), h16, Nat.clog_pow]
    norm_num
  simp [create_vector, create_vector_with_capacity, h4]

/-- C2: starting from a default-capacity array of 4-byte integers, appending
`1,2,3,4,5` yields length `5`, capacity `16`, element `1` at index `0` and
`5` at index `4`; sorting with the comparator that answers the greater
signal exactly when its first argument is numerically smaller yields
`[5,4,3,2,1]`; removing index `2` yields `[5,4,2,1]` with length `4`. -/
theorem scenario_append_sort_remove :
    (appendAll [] ([1, 2, 3, 4, 5].map int4) (create_vector 4)).length = 5 ∧
    (appendAll [] ([1, 2, 3, 4, 5].map int4) (create_vector 4)).capacity = 16 ∧
    get_elem (appendAll [] ([1, 2, 3, 4, 5].map int4) (create_vector 4)) 0 = int4 1 ∧
    get_elem (appendAll [] ([1, 2, 3, 4, 5].map int4) (create_vector 4)) 4 = int4 5 ∧
    (List.range 5).map
      (fun i => dec4 (get_elem
        (sort_vector (appendAll [] ([1, 2, 3, 4, 5].map int4) (create_vector 4))
          descCompare) i)) = [5, 4, 3, 2, 1] ∧
    (List.range 4).map
      (fun i => dec4 (get_elem
        (remove_elem
          (sort_vector (appendAll [] ([1, 2, 3, 4, 5].map int4) (create_vector 4))
            descCompare) 2) i)) = [5, 4, 2, 1] ∧
    (remove_elem
      (sort_vector (appendAll [] ([1, 2, 3, 4, 5].map int4) (create_vector 4))
        descCompare) 2).length = 4 := by
  rw [create_vector_four_eq]
  decide

/-! ### C5: remove one past the end -/

/-- C5: `remove_elem` at `index == length` runs zero shift iterations, so
every byte of the buffer is unchanged, and still performs the unconditional
`size_t` decrement of `length` (which is literally `length - 1` whenever
`length >= 1`, and wraps modulo `2 ^ 64` at `length = 0`). -/
theorem remove_past_end (v : Vector) :
    (remove_elem v v.length).data = v.data ∧
    (remove_elem v v.length).length = (v.length + (sizeTMod - 1)) % sizeTMod ∧
    (1 ≤ v.length → v.length ≤ sizeTMod →
      (remove_elem v v.length).length = v.length - 1) := by
  have hloop : removeLoop v (v.length + 1) (v.length + 1) = v := by
    rw [removeLoop, if_neg (by omega)]
  have hmod : sizeTMod = 18446744073709551616 := by norm_num [sizeTMod]
  simp only [remove_elem, hloop]
  refine ⟨trivial, trivial, ?_⟩
  intro h1 h2
  rw [hmod] at h2 ⊢
  omega

/-- Witness for C5 at a three-element vector of 1-byte elements. -/
theorem remove_past_end_witness :
    (remove_elem (Vector.mk [[1], [2], [3]] 1 3 4) 3).data = [[1], [2], [3]] ∧
    (remove_elem (Vector.mk [[1], [2], [3]] 1 3 4) 3).length = 2 :=
  ⟨(remove_past_end (Vector.mk [[1], [2], [3]] 1 3 4)).1,
   ((remove_past_end (Vector.mk [[1], [2], [3]] 1 3 4)).2.2 (by norm_num)
     (by norm_num [sizeTMod]))⟩

/-! ### C7: mismatched element sizes in the shared-elements check -/

/-- C7: when the `elem_size` fields differ, `any_elems_shared` reports an
error and returns `FALSE` without inspecting any element bytes — the result
is the same `(false, error reported)` pair for every possible buffer
contents of either array. -/
theorem any_shared_size_mismatch (v1 v2 : Vector)
    (h : v1.elem_size ≠ v2.elem_size) (d1 d2 : List Elem) :
    any_elems_shared v1 v2 = (false, true) ∧
    any_elems_shared { v1 with data := d1 } { v2 with data := d2 } = (false, true) := by
  constructor <;> simp [any_elems_shared, h]

/-- Witness for C7: a 1-byte-element vector against a 2-byte-element vector,
including with the buffers replaced by byte-equal contents. -/
theorem any_shared_size_mismatch_witness :
    (1 ≠ 2 ∨ True) ∧
    any_elems_shared (Vector.mk [[1]] 1 1 1) (Vector.mk [[1, 1]] 2 1 1) = (false, true) ∧
    any_elems_shared (Vector.mk [[7]] 1 1 1) (Vector.mk [[9, 9]] 2 1 1) = (false, true) := by
  have h := any_shared_size_mismatch (Vector.mk [[1]] 1 1 1) (Vector.mk [[1, 1]] 2 1 1)
    (by norm_num) [[7]] [[9, 9]]
  exact ⟨Or.inl (by norm_num), h.1, h.2⟩

/-! ### C9: expand_vector sets capacity exactly and preserves the prefix -/

/-- C9: a successful `expand_vector(array, new_size)` — for every `new_size`,
including shrinking requests and sizes that are not powers of two — sets
`capacity` to exactly `new_size` (no rounding, no rejection), leaves
`length` and `elem_size` alone, and preserves the first
`min(old_capacity, new_size)` slots (`min(old_capacity, new_size) *
element_size` bytes) of the buffer. -/
theorem expand_exact_capacity_preserves_prefix (v : Vector) (new_size : Nat)
    (fresh : List Elem) (h : v.data.length = v.capacity) :
    (expand_vector v new_size fresh).capacity = new_size ∧
    (expand_vector v new_size fresh).length = v.length ∧
    (expand_vector v new_size fresh).elem_size = v.elem_size ∧
    ∀ j, j < min v.capacity new_size →
      get_elem (expand_vector v new_size fresh) j = get_elem v j := by
  refine ⟨rfl, rfl, rfl, ?_⟩
  intro j hj
  show ((v.data ++ fresh).take new_size).getD j [] = v.data.getD j []
  rw [getD_take_of_lt _ _ _ (by omega), List.getD_eq_getElem?_getD,
    List.getD_eq_getElem?_getD, List.getElem?_append_left (by omega)]

/-- Witness for C9: shrinking a capacity-4 buffer to 2 keeps capacity exactly
2 and the first two slots intact. -/
theorem expand_exact_capacity_preserves_prefix_witness :
    (([[1], [2], [3], [4]] : List Elem).length = 4) ∧
    (expand_vector (Vector.mk [[1], [2], [3], [4]] 1 2 4) 2 [[9]]).capacity = 2 ∧
    get_elem (expand_vector (Vector.mk [[1], [2], [3], [4]] 1 2 4) 2 [[9]]) 0 =
      get_elem (Vector.mk [[1], [2], [3], [4]] 1 2 4) 0 ∧
    get_elem (expand_vector (Vector.mk [[1], [2], [3], [4]] 1 2 4) 2 [[9]]) 1 =
      get_elem (Vector.mk [[1], [2], [3], [4]] 1 2 4) 1 := by
  have h := expand_exact_capacity_preserves_prefix (Vector.mk [[1], [2], [3], [4]] 1 2 4)
    2 [[9]] (by norm_num)
  exact ⟨by norm_num, h.1, h.2.2.2 0 (by norm_num), h.2.2.2 1 (by norm_num)⟩

/-! ### C4: remove at a valid index shifts the tail down -/

/-- The shift loop of `remove_elem` leaves the `length`, `capacity` and
`elem_size` fields and the buffer's slot count unchanged. -/
lemma removeLoop_fields : ∀ (fuel : Nat) (v : Vector) (i : Nat),
    (removeLoop v i fuel).length = v.length ∧
    (removeLoop v i fuel).capacity = v.capacity ∧
    (removeLoop v i fuel).elem_size = v.elem_size ∧
    (removeLoop v i fuel).data.length = v.data.length := by
  intro fuel
  induction fuel with
  | zero =>
    intro v i
    exact ⟨rfl, rfl, rfl, rfl⟩
  | succ fuel ih =>
    intro v i
    rw [removeLoop]
    by_cases hc : i < v.length
    · rw [if_pos hc]
      have h := ih (set_elem v (i - 1) (get_elem v i)) (i + 1)
      simpa [set_elem] using h
    · rw [if_neg hc]
      exact ⟨rfl, rfl, rfl, rfl⟩

/-- Slotwise effect of the shift loop started at position `i >= 1` with
enough fuel: slot `j` ends up holding the original slot `j + 1` when
`i - 1 <= j` and `j + 1 < length` (the range the loop writes), and its
original contents otherwise. -/
lemma removeLoop_getD : ∀ (fuel : Nat) (v : Vector) (i j : Nat), 1 ≤ i →
    v.length ≤ v.data.length → v.length - i ≤ fuel →
    (removeLoop v i fuel).data.getD j [] =
      if i ≤ j + 1 ∧ j + 1 < v.length then v.data.getD (j + 1) []
      else v.data.getD j [] := by
  intro fuel
  induction fuel with
  | zero =>
    intro v i j h1 h2 h3
    have hcond : ¬ (i ≤ j + 1 ∧ j + 1 < v.length) := by omega
    rw [if_neg hcond]
    rfl
  | succ fuel ih =>
    intro v i j h1 h2 h3
    rw [removeLoop]
    by_cases hc : i < v.length
    · rw [if_pos hc]
      have hwrite : i - 1 < v.data.length := by omega
      have hrec := ih (set_elem v (i - 1) (get_elem v i)) (i + 1) j (by omega)
        (by simpa [set_elem] using h2) (by simp only [set_elem]; omega)
      rw [hrec]
      simp only [set_elem]
      by_cases hA : i + 1 ≤ j + 1 ∧ j + 1 < v.length
      · rw [if_pos hA, getD_set_of_lt _ _ _ _ hwrite, if_neg (by omega),
          if_pos ⟨by omega, hA.2⟩]
      · rw [if_neg hA, getD_set_of_lt _ _ _ _ hwrite]
        by_cases hB : i - 1 = j
        · rw [if_pos hB, if_pos ⟨by omega, by omega⟩, get_elem]
          have : j + 1 = i := by omega
          rw [this]
        · rw [if_neg hB, if_neg (by omega)]
    · rw [if_neg hc, if_neg (by omega)]

/-- Unfolding of the `remove_elem` wrapper: the buffer after removal is the
buffer left by the shift loop. -/
lemma remove_elem_data (v : Vector) (index : Nat) :
    (remove_elem v index).data = (removeLoop v (index + 1) (v.length + 1)).data := by
  rw [remove_elem]

/-- Unfolding of the `remove_elem` wrapper: the final length is the `size_t`
decrement of the length left by the shift loop (which never changes it). -/
lemma remove_elem_length (v : Vector) (index : Nat) :
    (remove_elem v index).length =
      ((removeLoop v (index + 1) (v.length + 1)).length + (sizeTMod - 1)) % sizeTMod := by
  rw [remove_elem]

/-- C4: for `0 <= index < length`, `remove_elem` decreases `length` by
exactly one, moves every element originally at an index `j > index` down to
`j - 1`, and leaves every element at an index below `index` unchanged. -/
theorem remove_shifts_down (v : Vector) (index : Nat) (h1 : index < v.length)
    (h2 : v.length ≤ v.data.length) (h3 : v.length ≤ sizeTMod) :
    (remove_elem v index).length = v.length - 1 ∧
    (∀ j, j < index → get_elem (remove_elem v index) j = get_elem v j) ∧
    (∀ j, index < j → j < v.length →
      get_elem (remove_elem v index) (j - 1) = get_elem v j) := by
  have hfields := removeLoop_fields (v.length + 1) v (index + 1)
  have hchar := fun j => removeLoop_getD (v.length + 1) v (index + 1) j
    (by omega) h2 (by omega)
  have hmod : sizeTMod = 18446744073709551616 := by norm_num [sizeTMod]
  refine ⟨?_, ?_, ?_⟩
  · rw [remove_elem_length, hfields.1]
    rw [hmod] at h3 ⊢
    omega
  · intro j hj
    show (remove_elem v index).data.getD j [] = v.data.getD j []
    rw [remove_elem_data, hchar j, if_neg (by omega)]
  · intro j hj1 hj2
    show (remove_elem v index).data.getD (j - 1) [] = v.data.getD j []
    rw [remove_elem_data, hchar (j - 1), if_pos ⟨by omega, by omega⟩]
    have : j - 1 + 1 = j := by omega
    rw [this]

/-- Witness for C4: removing index 1 of `[[1],[2],[3]]` gives length 2,
keeps slot 0 and moves slot 2 down to slot 1. -/
theorem remove_shifts_down_witness :
    (1 < 3 ∧ (3:Nat) ≤ 3) ∧
    (remove_elem (Vector.mk [[1], [2], [3]] 1 3 4) 1).length = 2 ∧
    get_elem (remove_elem (Vector.mk [[1], [2], [3]] 1 3 4) 1) 0 =
      get_elem (Vector.mk [[1], [2], [3]] 1 3 4) 0 ∧
    get_elem (remove_elem (Vector.mk [[1], [2], [3]] 1 3 4) 1) 1 =
      get_elem (Vector.mk [[1], [2], [3]] 1 3 4) 2 := by
  have h := remove_shifts_down (Vector.mk [[1], [2], [3]] 1 3 4) 1 (by norm_num)
    (by norm_num) (by norm_num [sizeTMod])
  exact ⟨⟨by norm_num, by norm_num⟩, h.1, h.2.1 0 (by norm_num),
    h.2.2 2 (by norm_num) (by norm_num)⟩

/-! ### C8: index_of returns the first byte-equal index -/

/-- The scan of `index_of` starting at `i` (with enough fuel) either finds
the first matching slot at or after `i` and returns its index, or establishes
that no slot in `[i, length)` matches and returns `-1`. -/
lemma indexOfLoop_spec : ∀ (fuel : Nat) (v : Vector) (e : Elem) (i : Nat),
    v.length < i + fuel →
    (∃ k, i ≤ k ∧ k < v.length ∧ get_elem v k = e ∧
      (∀ j, i ≤ j → j < k → get_elem v j ≠ e) ∧
      indexOfLoop v e i fuel = (k : Int)) ∨
    ((∀ k, i ≤ k → k < v.length → get_elem v k ≠ e) ∧
      indexOfLoop v e i fuel = -1) := by
  intro fuel
  induction fuel with
  | zero =>
    intro v e i h
    right
    refine ⟨?_, rfl⟩
    intro k hk1 hk2
    exfalso
    omega
  | succ fuel ih =>
    intro v e i h
    rw [indexOfLoop]
    by_cases hc : i < v.length
    · rw [if_pos hc]
      by_cases he : get_elem v i = e
      · rw [if_pos he]
        left
        exact ⟨i, Nat.le_refl i, hc, he, fun j hj1 hj2 => absurd hj1 (by omega), rfl⟩
      · rw [if_neg he]
        rcases ih v e (i + 1) (by omega) with
          ⟨k, hk1, hk2, hk3, hk4, hk5⟩ | ⟨hall, hres⟩
        · left
          refine ⟨k, by omega, hk2, hk3, ?_, hk5⟩
          intro j hj1 hj2
          rcases Nat.eq_or_lt_of_le hj1 with hji | hji
          · rw [← hji]
            exact he
          · exact hk4 j hji hj2
        · right
          refine ⟨?_, hres⟩
          intro k hk1 hk2
          rcases Nat.eq_or_lt_of_le hk1 with hki | hki
          · rw [← hki]
            exact he
          · exact hall k hki hk2
    · rw [if_neg hc]
      right
      refine ⟨?_, rfl⟩
      intro k hk1 hk2
      exfalso
      omega

/-- C8: `index_of(a, v)` returns the smallest index `0 <= i < length` whose
slot's bytes equal those of `v`, and `-1` exactly when no valid index has
byte-equal contents. -/
theorem index_of_first_match (v : Vector) (element : Elem) :
    (index_of v element = -1 ↔ ∀ i, i < v.length → get_elem v i ≠ element) ∧
    (index_of v element ≠ -1 →
      ∃ i : Nat, index_of v element = (i : Int) ∧ i < v.length ∧
        get_elem v i = element ∧ ∀ j, j < i → get_elem v j ≠ element) := by
  have h := indexOfLoop_spec (v.length + 1) v element 0 (by omega)
  rcases h with ⟨k, _, hk2, hk3, hk4, hk5⟩ | ⟨hall, hres⟩
  · have hne : index_of v element ≠ -1 := by
      rw [index_of, hk5]
      omega
    constructor
    · constructor
      · intro habs
        exact absurd habs hne
      · intro hnone
        exact absurd hk3 (hnone k hk2)
    · intro _
      exact ⟨k, by rw [index_of, hk5], hk2, hk3, fun j hj => hk4 j (Nat.zero_le j) hj⟩
  · constructor
    · constructor
      · intro _ i hi
        exact hall i (Nat.zero_le i) hi
      · intro _
        rw [index_of, hres]
    · intro habs
      exact absurd (by rw [index_of, hres]) habs

/-- Witness for C8 on `[[1],[2],[1]]`: value `[1]` is found first at index
`0`, and value `[7]` is absent, giving `-1`. -/
theorem index_of_first_match_witness :
    index_of (Vector.mk [[1], [2], [1]] 1 3 4) [7] = -1 ∧
    index_of (Vector.mk [[1], [2], [1]] 1 3 4) [1] = 0 := by
  constructor
  · exact (index_of_first_match (Vector.mk [[1], [2], [1]] 1 3 4) [7]).1.mpr
      (by decide)
  · have h := (index_of_first_match (Vector.mk [[1], [2], [1]] 1 3 4) [1]).2
      (by decide)
    rcases h with ⟨i, hi1, hi2, hi3, hi4⟩
    have : i = 0 := by
      by_contra hne
      exact hi4 0 (by omega) (by decide)
    rw [hi1, this]
    rfl

/-! ### C6: any_elems_shared is the OR over all pairs, hence symmetric -/

/-- The inner scan of `any_elems_shared` answers `true` exactly when some
slot of `vector2` at or after position `j` byte-equals `elem1`. -/
lemma anyInnerLoop_true_iff : ∀ (fuel : Nat) (v2 : Vector) (e : Elem) (j : Nat),
    v2.length < j + fuel →
    (anyInnerLoop v2 e j fuel = true ↔
      ∃ k, j ≤ k ∧ k < v2.length ∧ e = get_elem v2 k) := by
  intro fuel
  induction fuel with
  | zero =>
    intro v2 e j h
    constructor
    · intro habs
      exact absurd habs (by rw [anyInnerLoop]; simp)
    · intro ⟨k, hk1, hk2, _⟩
      exfalso
      omega
  | succ fuel ih =>
    intro v2 e j h
    rw [anyInnerLoop]
    by_cases hc : j < v2.length
    · rw [if_pos hc]
      by_cases he : e = get_elem v2 j
      · rw [if_pos he]
        simp only [true_iff]
        exact ⟨j, Nat.le_refl j, hc, he⟩
      · rw [if_neg he, ih v2 e (j + 1) (by omega)]
        constructor
        · intro ⟨k, hk1, hk2, hk3⟩
          exact ⟨k, by omega, hk2, hk3⟩
        · intro ⟨k, hk1, hk2, hk3⟩
          refine ⟨k, ?_, hk2, hk3⟩
          rcases Nat.eq_or_lt_of_le hk1 with hkj | hkj
          · exact absurd (hkj ▸ hk3) he
          · omega
    · rw [if_neg hc]
      constructor
      · intro habs
        exact absurd habs (by simp)
      · intro ⟨k, hk1, hk2, _⟩
        exfalso
        omega

/-- The outer scan of `any_elems_shared` answers `true` exactly when some
slot of `vector1` at or after position `i` byte-equals some valid slot of
`vector2`. -/
lemma anyOuterLoop_true_iff : ∀ (fuel : Nat) (v1 v2 : Vector) (i : Nat),
    v1.length < i + fuel →
    (anyOuterLoop v1 v2 i fuel = true ↔
      ∃ a, i ≤ a ∧ a < v1.length ∧
        ∃ b, b < v2.length ∧ get_elem v1 a = get_elem v2 b) := by
  intro fuel
  induction fuel with
  | zero =>
    intro v1 v2 i h
    constructor
    · intro habs
      exact absurd habs (by rw [anyOuterLoop]; simp)
    · intro ⟨a, ha1, ha2, _⟩
      exfalso
      omega
  | succ fuel ih =>
    intro v1 v2 i h
    rw [anyOuterLoop]
    by_cases hc : i < v1.length
    · rw [if_pos hc]
      have hinner := anyInnerLoop_true_iff (v2.length + 1) v2 (get_elem v1 i) 0
        (by omega)
      by_cases hfound : anyInnerLoop v2 (get_elem v1 i) 0 (v2.length + 1) = true
      · rw [if_pos hfound]
        simp only [true_iff]
        rcases hinner.mp hfound with ⟨b, _, hb2, hb3⟩
        exact ⟨i, Nat.le_refl i, hc, b, hb2, hb3⟩
      · rw [if_neg hfound, ih v1 v2 (i + 1) (by omega)]
        constructor
        · intro ⟨a, ha1, ha2, hb⟩
          exact ⟨a, by omega, ha2, hb⟩
        · intro ⟨a, ha1, ha2, b, hb1, hb2⟩
          refine ⟨a, ?_, ha2, b, hb1, hb2⟩
          rcases Nat.eq_or_lt_of_le ha1 with hai | hai
          · exfalso
            exact hfound (hinner.mpr ⟨b, Nat.zero_le b, hb1, by rw [hai]; exact hb2⟩)
          · omega
    · rw [if_neg hc]
      constructor
      · intro habs
        exact absurd habs (by simp)
      · intro ⟨a, ha1, ha2, _⟩
        exfalso
        omega

/-- C6: with matching `elem_size`, `any_elems_shared` is exactly the boolean
OR, over all pairs of valid indices, of byte-equality of the two slots, and
is therefore symmetric in its two arguments. -/
theorem any_shared_symm_pairwise_or (v1 v2 : Vector)
    (h : v1.elem_size = v2.elem_size) :
    (any_elems_shared v1 v2).1 = (any_elems_shared v2 v1).1 ∧
    ((any_elems_shared v1 v2).1 = true ↔
      ∃ i, i < v1.length ∧ ∃ j, j < v2.length ∧
        get_elem v1 i = get_elem v2 j) := by
  have h12 : any_elems_shared v1 v2 =
      (anyOuterLoop v1 v2 0 (v1.length + 1), false) := by
    rw [any_elems_shared, if_neg (by omega)]
  have h21 : any_elems_shared v2 v1 =
      (anyOuterLoop v2 v1 0 (v2.length + 1), false) := by
    rw [any_elems_shared, if_neg (by omega)]
  have o12 := anyOuterLoop_true_iff (v1.length + 1) v1 v2 0 (by omega)
  have o21 := anyOuterLoop_true_iff (v2.length + 1) v2 v1 0 (by omega)
  have hiff : ((any_elems_shared v1 v2).1 = true ↔
      ∃ i, i < v1.length ∧ ∃ j, j < v2.length ∧
        get_elem v1 i = get_elem v2 j) := by
    rw [h12]
    simp only
    rw [o12]
    constructor
    · intro ⟨a, _, ha2, b, hb1, hb2⟩
      exact ⟨a, ha2, b, hb1, hb2⟩
    · intro ⟨a, ha2, b, hb1, hb2⟩
      exact ⟨a, Nat.zero_le a, ha2, b, hb1, hb2⟩
  refine ⟨?_, hiff⟩
  rw [Bool.eq_iff_iff, hiff, h21]
  simp only
  rw [o21]
  constructor
  · intro ⟨a, ha2, b, hb1, hb2⟩
    exact ⟨b, Nat.zero_le b, hb1, a, ha2, hb2.symm⟩
  · intro ⟨b, _, hb1, a, ha2, hab⟩
    exact ⟨a, ha2, b, hb1, hab.symm⟩

/-- Witness for C6 on two 1-byte-element vectors sharing the value `[2]`. -/
theorem any_shared_symm_pairwise_or_witness :
    ((1:Nat) = 1) ∧
    (any_elems_shared (Vector.mk [[1], [2]] 1 2 2) (Vector.mk [[3], [2]] 1 2 2)).1 =
      (any_elems_shared (Vector.mk [[3], [2]] 1 2 2) (Vector.mk [[1], [2]] 1 2 2)).1 ∧
    (any_elems_shared (Vector.mk [[1], [2]] 1 2 2) (Vector.mk [[3], [2]] 1 2 2)).1 = true := by
  have h := any_shared_symm_pairwise_or (Vector.mk [[1], [2]] 1 2 2)
    (Vector.mk [[3], [2]] 1 2 2) rfl
  exact ⟨rfl, h.1, h.2.mpr ⟨1, by norm_num, 1, by norm_num, by decide⟩⟩

/-! ### C3: length and capacity across append sequences -/

/-- Each `push_back` increments `length` by exactly one (growth does not
touch `length`). -/
lemma push_back_length (fresh : List Elem) (v : Vector) (e : Elem) :
    (push_back fresh v e).length = v.length + 1 := by
  by_cases hc : v.capacity ≤ v.length <;>
    simp [push_back, expand_vector, set_elem, hc]

/-- Each `push_back` doubles `capacity` when the vector is full and leaves it
alone otherwise. -/
lemma push_back_capacity (fresh : List Elem) (v : Vector) (e : Elem) :
    (push_back fresh v e).capacity =
      if v.capacity ≤ v.length then v.capacity * 2 else v.capacity := by
  by_cases hc : v.capacity ≤ v.length <;>
    simp [push_back, expand_vector, set_elem, hc]

/-- Appending `n` elements adds exactly `n` to the length. -/
lemma appendAll_length : ∀ (elems : List Elem) (fresh : List Elem) (v : Vector),
    (appendAll fresh elems v).length = v.length + elems.length := by
  intro elems
  induction elems with
  | nil =>
    intro fresh v
    rfl
  | cons e es ih =>
    intro fresh v
    show (appendAll fresh es (push_back fresh v e)).length = _
    rw [ih, push_back_length]
    simp
    omega

/-- `push_back` preserves the structural invariant: power-of-two capacity,
length within capacity, capacity at least one. -/
lemma push_back_invariant (fresh : List Elem) (v : Vector) (e : Elem)
    (hp : isPow2 v.capacity) (hl : v.length ≤ v.capacity) (h1 : 1 ≤ v.capacity) :
    isPow2 (push_back fresh v e).capacity ∧
    (push_back fresh v e).length ≤ (push_back fresh v e).capacity ∧
    1 ≤ (push_back fresh v e).capacity := by
  rw [push_back_length, push_back_capacity]
  by_cases hc : v.capacity ≤ v.length
  · rw [if_pos hc]
    obtain ⟨k, hk⟩ := hp
    exact ⟨⟨k + 1, by rw [hk, pow_succ]⟩, by omega, by omega⟩
  · rw [if_neg hc]
    exact ⟨hp, by omega, h1⟩

/-- The structural invariant is preserved by any sequence of appends. -/
lemma appendAll_invariant : ∀ (elems : List Elem) (fresh : List Elem) (v : Vector),
    isPow2 v.capacity → v.length ≤ v.capacity → 1 ≤ v.capacity →
    isPow2 (appendAll fresh elems v).capacity ∧
    (appendAll fresh elems v).length ≤ (appendAll fresh elems v).capacity ∧
    1 ≤ (appendAll fresh elems v).capacity := by
  intro elems
  induction elems with
  | nil =>
    intro fresh v hp hl h1
    exact ⟨hp, hl, h1⟩
  | cons e es ih =>
    intro fresh v hp hl h1
    have hstep := push_back_invariant fresh v e hp hl h1
    exact ih fresh (push_back fresh v e) hstep.1 hstep.2.1 hstep.2.2

/-- One `push_back` step never shrinks capacity, and the new capacity is the
least power of two that is `>=` both the new length and the old capacity. -/
lemma push_back_capacity_least (fresh : List Elem) (v : Vector) (e : Elem)
    (hp : isPow2 v.capacity) (hl : v.length ≤ v.capacity) (h1 : 1 ≤ v.capacity) :
    v.capacity ≤ (push_back fresh v e).capacity ∧
    isLeastPow2Ge (push_back fresh v e).capacity
      (max (push_back fresh v e).length v.capacity) := by
  rw [push_back_length, push_back_capacity]
  unfold isLeastPow2Ge
  by_cases hc : v.capacity ≤ v.length
  · rw [if_pos hc]
    obtain ⟨k, hk⟩ := hp
    refine ⟨by omega, ⟨k + 1, by rw [hk, pow_succ]⟩, by omega, ?_⟩
    intro m hm
    have h2 : v.capacity < 2 ^ m := by omega
    rw [hk] at h2 ⊢
    have hkm : k < m := (Nat.pow_lt_pow_iff_right (by norm_num)).mp h2
    calc (2:Nat) ^ k * 2 = 2 ^ (k + 1) := (pow_succ 2 k).symm
      _ ≤ 2 ^ m := Nat.pow_le_pow_right (by norm_num) (by omega)
  · rw [if_neg hc]
    have hmax : max (v.length + 1) v.capacity = v.capacity := by omega
    rw [hmax]
    exact ⟨Nat.le_refl _, hp, Nat.le_refl _, fun m hm => hm⟩

/-- C3: from any freshly created array, a sequence of `N` appends (and no
removals) ends with `length = N`, and at every step the capacity is the
smallest power of two that is both `>=` the new length and `>=` the previous
step's capacity — in particular capacity never decreases. -/
theorem append_sequence_length_capacity (es m : Nat) (fresh : List Elem)
    (elems : List Elem) (k : Nat) (hk : k < elems.length) :
    (appendAll fresh elems (create_vector_with_capacity es m)).length = elems.length ∧
    (appendAll fresh (elems.take k) (create_vector_with_capacity es m)).capacity ≤
      (appendAll fresh (elems.take (k + 1)) (create_vector_with_capacity es m)).capacity ∧
    isLeastPow2Ge
      (appendAll fresh (elems.take (k + 1)) (create_vector_with_capacity es m)).capacity
      (max
        (appendAll fresh (elems.take (k + 1)) (create_vector_with_capacity es m)).length
        (appendAll fresh (elems.take k) (create_vector_with_capacity es m)).capacity) := by
  have hcap0 : (create_vector_with_capacity es m).capacity = 2 ^ next_pow_2 m := rfl
  have hlen0 : (create_vector_with_capacity es m).length = 0 := rfl
  have hinv0 : isPow2 (create_vector_with_capacity es m).capacity ∧
      (create_vector_with_capacity es m).length ≤
        (create_vector_with_capacity es m).capacity ∧
      1 ≤ (create_vector_with_capacity es m).capacity := by
    rw [hcap0, hlen0]
    exact ⟨⟨next_pow_2 m, rfl⟩, Nat.zero_le _, Nat.one_le_two_pow⟩
  have hvk := appendAll_invariant (elems.take k) fresh (create_vector_with_capacity es m)
    hinv0.1 hinv0.2.1 hinv0.2.2
  have hsplit : elems.take (k + 1) = elems.take k ++ [elems[k]] := by
    rw [List.take_succ, List.getElem?_eq_getElem hk]
    rfl
  have heq : appendAll fresh (elems.take (k + 1)) (create_vector_with_capacity es m) =
      push_back fresh
        (appendAll fresh (elems.take k) (create_vector_with_capacity es m)) elems[k] := by
    rw [hsplit]
    show List.foldl _ _ _ = _
    rw [List.foldl_append]
    rfl
  have hstep := push_back_capacity_least fresh
    (appendAll fresh (elems.take k) (create_vector_with_capacity es m)) elems[k]
    hvk.1 hvk.2.1 hvk.2.2
  refine ⟨?_, ?_, ?_⟩
  · rw [appendAll_length, hlen0]
    omega
  · rw [heq]
    exact hstep.1
  · rw [heq]
    exact hstep.2

/-- Witness for C3: three appends to a capacity-2 array of 1-byte elements;
the third append doubles capacity from 2 to 4, the least power of two
covering the new length 3. -/
theorem append_sequence_length_capacity_witness :
    (2 < 3) ∧
    ((appendAll [] [[5], [6], [7]] (create_vector_with_capacity 1 1)).length = 3 ∧
     (appendAll [] (([[5], [6], [7]] : List Elem).take 2)
        (create_vector_with_capacity 1 1)).capacity ≤
       (appendAll [] (([[5], [6], [7]] : List Elem).take 3)
          (create_vector_with_capacity 1 1)).capacity ∧
     isLeastPow2Ge
       (appendAll [] (([[5], [6], [7]] : List Elem).take 3)
          (create_vector_with_capacity 1 1)).capacity
       (max
         (appendAll [] (([[5], [6], [7]] : List Elem).take 3)
            (create_vector_with_capacity 1 1)).length
         (appendAll [] (([[5], [6], [7]] : List Elem).take 2)
            (create_vector_with_capacity 1 1)).capacity)) :=
  ⟨by norm_num, append_sequence_length_capacity 1 1 [] [[5], [6], [7]] 2 (by norm_num)⟩

/-! ### C10: sorting permutes the valid slots and preserves the fields -/

/-- Prepending the old value of slot `k` to a list whose slot `k` was
overwritten with `a` is a permutation of prepending `a` to the original. -/
lemma cons_set_perm : ∀ (t : List Elem) (k : Nat) (a : Elem), k < t.length →
    List.Perm (t.getD k [] :: t.set k a) (a :: t) := by
  intro t
  induction t with
  | nil =>
    intro k a h
    simp at h
  | cons b t ih =>
    intro k a h
    cases k with
    | zero =>
      simp only [List.getD_cons_zero, List.set_cons_zero]
      exact List.Perm.swap a b t
    | succ k =>
      have h' : k < t.length := by simpa using h
      simp only [List.getD_cons_succ, List.set_cons_succ]
      have p1 : List.Perm (t.getD k [] :: b :: t.set k a)
          (b :: t.getD k [] :: t.set k a) := List.Perm.swap b (t.getD k []) (t.set k a)
      have p2 : List.Perm (b :: t.getD k [] :: t.set k a) (b :: a :: t) :=
        List.Perm.cons b (ih k a h')
      have p3 : List.Perm (b :: a :: t) (a :: b :: t) := List.Perm.swap a b t
      exact p1.trans (p2.trans p3)

/-- Writing slot `j`'s old value into slot `i` and slot `i`'s old value into
slot `j` (with `i < j < length`) permutes the list. -/
lemma set_set_perm : ∀ (l : List Elem) (i j : Nat), i < j → j < l.length →
    List.Perm ((l.set i (l.getD j [])).set j (l.getD i [])) l := by
  intro l
  induction l with
  | nil =>
    intro i j h1 h2
    simp at h2
  | cons b t ih =>
    intro i j h1 h2
    cases i with
    | zero =>
      cases j with
      | zero => omega
      | succ j =>
        have hj : j < t.length := by simpa using h2
        simp only [List.getD_cons_succ, List.getD_cons_zero, List.set_cons_zero,
          List.set_cons_succ]
        exact cons_set_perm t j b hj
    | succ i =>
      cases j with
      | zero => omega
      | succ j =>
        simp only [List.getD_cons_succ, List.set_cons_succ]
        exact List.Perm.cons b (ih i j (by omega) (by simpa using h2))

/-- Exchanging two distinct in-range slots permutes the list. -/
lemma swap_slots_perm (l : List Elem) (i j : Nat) (hne : i ≠ j)
    (hi : i < l.length) (hj : j < l.length) :
    List.Perm ((l.set i (l.getD j [])).set j (l.getD i [])) l := by
  rcases Nat.lt_or_ge i j with h | h
  · exact set_set_perm l i j h hj
  · have hji : j < i := by omega
    rw [List.set_comm _ _ _ hne]
    exact set_set_perm l j i hji hi

/-- `swap_elems` at two indices below `n <= |buffer|` keeps every field and
the buffer size, permutes the first `n` slots and fixes the rest. -/
lemma swap_elems_spec (v : Vector) (i j n : Nat) (hi : i < n) (hj : j < n)
    (hn : n ≤ v.data.length) :
    (swap_elems v i j).length = v.length ∧
    (swap_elems v i j).capacity = v.capacity ∧
    (swap_elems v i j).elem_size = v.elem_size ∧
    (swap_elems v i j).data.length = v.data.length ∧
    List.Perm ((swap_elems v i j).data.take n) (v.data.take n) ∧
    (swap_elems v i j).data.drop n = v.data.drop n := by
  by_cases he : i = j
  · rw [swap_elems, if_pos he]
    exact ⟨rfl, rfl, rfl, rfl, List.Perm.refl _, rfl⟩
  · rw [swap_elems, if_neg he]
    refine ⟨rfl, rfl, rfl, ?_, ?_, ?_⟩
    · show ((v.data.set i (v.data.getD j [])).set j (v.data.getD i [])).length =
        v.data.length
      simp
    · show List.Perm (((v.data.set i (v.data.getD j [])).set j
          (v.data.getD i [])).take n) (v.data.take n)
      rw [List.set_take, List.set_take]
      rw [show v.data.getD j [] = (v.data.take n).getD j []
          from (getD_take_of_lt v.data n j hj).symm,
        show v.data.getD i [] = (v.data.take n).getD i []
          from (getD_take_of_lt v.data n i hi).symm]
      exact swap_slots_perm (v.data.take n) i j he
        (by rw [List.length_take]; omega) (by rw [List.length_take]; omega)
    · show ((v.data.set i (v.data.getD j [])).set j (v.data.getD i [])).drop n =
        v.data.drop n
      rw [drop_set_of_lt _ _ _ _ hj, drop_set_of_lt _ _ _ _ hi]

/-- The candidate index returned by the inner scan of the sort is bounded:
it stays at or after the outer position and below `length`. -/
lemma sortInnerLoop_bound : ∀ (fuel : Nat) (v : Vector) (cmp : Elem → Elem → Int)
    (m j lo : Nat), lo ≤ m → m < v.length → lo < j →
    lo ≤ sortInnerLoop v cmp m j fuel ∧ sortInnerLoop v cmp m j fuel < v.length := by
  intro fuel
  induction fuel with
  | zero =>
    intro v cmp m j lo h1 h2 h3
    exact ⟨h1, h2⟩
  | succ fuel ih =>
    intro v cmp m j lo h1 h2 h3
    simp only [sortInnerLoop]
    by_cases hc : j < v.length
    · rw [if_pos hc]
      by_cases hr : cmp (get_elem v m) (get_elem v j) = 1
      · rw [if_pos hr]
        exact ih v cmp j (j + 1) lo (by omega) hc (by omega)
      · rw [if_neg hr]
        exact ih v cmp m (j + 1) lo h1 h2 (by omega)
    · rw [if_neg hc]
      exact ⟨h1, h2⟩

/-- The outer loop of the sort only ever swaps two valid slots, so it keeps
every field, permutes the first `length` slots of the buffer and leaves the
slots beyond `length` untouched. -/
lemma sortOuterLoop_spec : ∀ (fuel : Nat) (cmp : Elem → Elem → Int) (v : Vector)
    (i : Nat), v.length ≤ v.data.length →
    (sortOuterLoop cmp v i fuel).length = v.length ∧
    (sortOuterLoop cmp v i fuel).capacity = v.capacity ∧
    (sortOuterLoop cmp v i fuel).elem_size = v.elem_size ∧
    (sortOuterLoop cmp v i fuel).data.length = v.data.length ∧
    List.Perm ((sortOuterLoop cmp v i fuel).data.take v.length)
      (v.data.take v.length) ∧
    (sortOuterLoop cmp v i fuel).data.drop v.length = v.data.drop v.length := by
  intro fuel
  induction fuel with
  | zero =>
    intro cmp v i h
    exact ⟨rfl, rfl, rfl, rfl, List.Perm.refl _, rfl⟩
  | succ fuel ih =>
    intro cmp v i h
    rw [sortOuterLoop]
    by_cases hc : i < v.length - 1
    · rw [if_pos hc]
      have hmb := sortInnerLoop_bound (v.length + 1) v cmp i (i + 1) i
        (Nat.le_refl i) (by omega) (by omega)
      set mi := sortInnerLoop v cmp i (i + 1) (v.length + 1) with hmi
      have hsw := swap_elems_spec v i mi v.length (by omega) hmb.2 h
      have hrec := ih cmp (swap_elems v i mi) (i + 1)
        (by rw [hsw.1, hsw.2.2.2.1]; exact h)
      rw [hsw.1] at hrec
      exact ⟨hrec.1, hrec.2.1.trans hsw.2.1, hrec.2.2.1.trans hsw.2.2.1,
        hrec.2.2.2.1.trans hsw.2.2.2.1,
        hrec.2.2.2.2.1.trans hsw.2.2.2.2.1,
        hrec.2.2.2.2.2.trans hsw.2.2.2.2.2⟩
    · rw [if_neg hc]
      exact ⟨rfl, rfl, rfl, rfl, List.Perm.refl _, rfl⟩

/-- C10: for any array with `length >= 1` and any comparison function at all,
sorting leaves `length`, `capacity` and `elem_size` unchanged and the
multiset of the first `length` slots' byte contents is exactly preserved
(the algorithm only exchanges pairs of valid slots). -/
theorem sort_preserves_fields_multiset (v : Vector) (compare : Elem → Elem → Int)
    (_h1 : 1 ≤ v.length) (h2 : v.length ≤ v.data.length) :
    (sort_vector v compare).length = v.length ∧
    (sort_vector v compare).capacity = v.capacity ∧
    (sort_vector v compare).elem_size = v.elem_size ∧
    ((sort_vector v compare).data.take v.length : Multiset Elem) =
      (v.data.take v.length : Multiset Elem) := by
  have h := sortOuterLoop_spec (v.length + 1) compare v 0 h2
  exact ⟨h.1, h.2.1, h.2.2.1, Multiset.coe_eq_coe.mpr h.2.2.2.2.1⟩

/-- Witness for C10: sorting a two-element vector with the descending
comparator keeps the fields and the multiset of its two slots. -/
theorem sort_preserves_fields_multiset_witness :
    ((1:Nat) ≤ 2 ∧ (2:Nat) ≤ 2) ∧
    ((sort_vector (Vector.mk [[2], [1]] 1 2 2) descCompare).length = 2 ∧
     (sort_vector (Vector.mk [[2], [1]] 1 2 2) descCompare).capacity = 2 ∧
     (sort_vector (Vector.mk [[2], [1]] 1 2 2) descCompare).elem_size = 1 ∧
     ((sort_vector (Vector.mk [[2], [1]] 1 2 2) descCompare).data.take 2 : Multiset Elem) =
       (([[2], [1]] : List Elem).take 2 : Multiset Elem)) :=
  ⟨⟨by norm_num, by norm_num⟩,
   sort_preserves_fields_multiset (Vector.mk [[2], [1]] 1 2 2) descCompare
     (by norm_num) (by norm_num)⟩

end CVec
